import Mathlib

/-!
Verification development for the choco-ml compiler middle-end and RISC-V
backend.  The Rust sources (crates `ir`, `passes`, `riscv-backend`) are
shallowly embedded: each Rust function becomes an executable Lean function
over explicit data, `Vec` becomes `List`, `HashMap` becomes an association
list with single-key update semantics, a Rust `panic!`/`unwrap` failure
becomes `Option.none`, and loops whose termination is not structural take a
fuel parameter.  Machine integers (`i64`, `usize`) are modelled as `Int` or
`Nat` with explicit range and underflow checks at the operations where the
Rust arithmetic can overflow (overflow of Rust integer arithmetic is a
program error: the checked model returns `none` where a debug build aborts).
-/

namespace Choco

/-- Association-list lookup (first matching key), modelling `HashMap::get`. -/
def alookup {α β : Type} [DecidableEq α] (k : α) : List (α × β) → Option β
  | [] => none
  | (k', v) :: rest => if k' = k then some v else alookup k rest

/-- Association-list update: replace the binding of `k` or append a new one.
Models `HashMap::insert` / `entry(..).or_insert(..)` followed by a write;
keeps at most one binding per key when the input has at most one. -/
def aset {α β : Type} [DecidableEq α] (k : α) (v : β) : List (α × β) → List (α × β)
  | [] => [(k, v)]
  | (k', v') :: rest => if k' = k then (k, v) :: rest else (k', v') :: aset k v rest

/-- Remove the last element of a list, returning the front and that element;
models `Vec::pop` (`none` on the empty vector). -/
def popLast {α : Type} : List α → Option (List α × α)
  | [] => none
  | [x] => some ([], x)
  | x :: y :: rest =>
    match popLast (y :: rest) with
    | some (front, last) => some (x :: front, last)
    | none => none

/-! ## IR data model (src/ir/src/cfg.rs) -/

/-- Literal values of the IR (`ir::cfg::Literal`): 64-bit integers and booleans.
The `i64` payload is an unbounded `Int`; every operation that the Rust code
performs on it carries its own range check. -/
inductive Literal where
  | Int (i : Int)
  | Bool (b : Bool)
deriving DecidableEq

/-- IR instructions (`ir::cfg::IrInstruction`), one constructor per Rust
variant with the same operand fields (strings name virtual values). -/
inductive IrInstruction where
  | Add (dest lhs rhs : String)
  | Mul (dest lhs rhs : String)
  | Sub (dest lhs rhs : String)
  | Div (dest lhs rhs : String)
  | Eq (dest lhs rhs : String)
  | Lt (dest lhs rhs : String)
  | Gt (dest lhs rhs : String)
  | Ge (dest lhs rhs : String)
  | Le (dest lhs rhs : String)
  | Not (dest args : String)
  | Or (dest lhs rhs : String)
  | And (dest lhs rhs : String)
  | Call (target_func : String) (args : List String) (dest : Option String)
  | Br (cond then_lbl else_lbl : String)
  | Jmp (label : String)
  | Ret (args : List String)
  | Phi (dest : String) (sources : List (Option String))
  | Const (dest : String) (value : Literal)
  | Print (values : List String)
  | Assign (lhs rhs : String)
deriving DecidableEq

namespace IrInstruction

/-- Names written by an instruction (`IrInstruction::defs`): at most one.
`Assign` binds its `lhs`; a `Call` defines only when it has a destination;
control flow and `Print` define nothing. -/
def defs : IrInstruction → List String
  | .Add dest _ _ | .Sub dest _ _ | .Mul dest _ _ | .Div dest _ _
  | .Eq dest _ _ | .Lt dest _ _ | .Gt dest _ _ | .Le dest _ _ | .Ge dest _ _
  | .Or dest _ _ | .And dest _ _ | .Not dest _
  | .Const dest _
  | .Assign dest _
  | .Phi dest _ => [dest]
  | .Call _ _ (some d) => [d]
  | .Call _ _ none => []
  | _ => []

/-- Names read by an instruction (`IrInstruction::uses`).  A `Phi` reads the
already-filled sources (`sources.iter().flatten()`); `Const`, `Jmp` and
`Assign`... note the Rust `uses()` reaches the `_ => Vec::new()` arm for
`Const`, `Jmp` and `Assign`, so an `Assign` reads nothing here, exactly as in
the source. -/
def uses : IrInstruction → List String
  | .Add _ lhs rhs | .Sub _ lhs rhs | .Mul _ lhs rhs | .Div _ lhs rhs
  | .Eq _ lhs rhs | .Lt _ lhs rhs | .Gt _ lhs rhs | .Le _ lhs rhs | .Ge _ lhs rhs
  | .Or _ lhs rhs | .And _ lhs rhs => [lhs, rhs]
  | .Not _ args => [args]
  | .Br cond _ _ => [cond]
  | .Call _ args _ => args
  | .Ret args => args
  | .Phi _ sources => sources.filterMap id
  | .Print values => values
  | _ => []

end IrInstruction

/-- A basic block (`ir::cfg::IrBasicBlock`): label, instructions, and the
predecessor / successor edge lists (block indices). -/
structure IrBasicBlock where
  label : String
  instrs : List IrInstruction
  preds : List Nat
  succs : List Nat
deriving DecidableEq

/-- A function (`ir::cfg::IrFunction`); `label_to_idx` is the label-to-index
map, embedded as an association list. -/
structure IrFunction where
  name : String
  args : List String
  blocks : List IrBasicBlock
  label_to_idx : List (String × Nat)
deriving DecidableEq

/-- Label lookup (`IrFunction::block_index`). -/
def IrFunction.block_index (f : IrFunction) (label : String) : Option Nat :=
  alookup label f.label_to_idx

/-- Replace block `i` of `f` by `g` applied to it (helper for in-place block
mutation; leaves `f` unchanged when `i` is out of range, which the call sites
below never exercise on their inputs). -/
def IrFunction.modifyBlock (f : IrFunction) (i : Nat) (g : IrBasicBlock → IrBasicBlock) :
    IrFunction :=
  { f with blocks := f.blocks.enum.map (fun p => if p.1 = i then g p.2 else p.2) }

/-- Register edge `from → to` (`IrFunction::add_edge`): push `to` onto
`succs(from)` and `from` onto `preds(to)`. -/
def IrFunction.add_edge (f : IrFunction) (a b : Nat) : IrFunction :=
  (f.modifyBlock a (fun blk => { blk with succs := blk.succs ++ [b] })).modifyBlock b
    (fun blk => { blk with preds := blk.preds ++ [a] })

/-! ## CFG wiring (src/ir/src/cfg.rs, `wire_block_edges`) -/

/-- Edge wiring for one block given its last instruction
(the match inside `wire_block_edges`).  `none` models the `unwrap` panic on a
label missing from `label_to_idx`.  The fall-through arm reproduces the
source's guard `curr_block_idx + 1 < func.blocks.len() - 1` verbatim
(`Nat` truncated subtraction agrees with `usize` here since the loop only
runs when `func.blocks.len() ≥ 1`). -/
def wireOneBlock (f : IrFunction) (b : Nat) : Option IrFunction :=
  match (f.blocks.get? b).bind (fun blk => blk.instrs.getLast?) with
  | none => some f
  | some terminator =>
    match terminator with
    | .Br _ then_lbl else_lbl =>
      match f.block_index then_lbl, f.block_index else_lbl with
      | some then_idx, some else_idx => some ((f.add_edge b then_idx).add_edge b else_idx)
      | _, _ => none
    | .Jmp label =>
      match f.block_index label with
      | some target_idx => some (f.add_edge b target_idx)
      | none => none
    | .Ret _ => some f
    | _ =>
      if b + 1 < f.blocks.length - 1 then some (f.add_edge b (b + 1)) else some f

/-- Loop body of `wire_block_edges` over `0..func.blocks.len()`. -/
def wireGo (f : IrFunction) : Nat → Nat → Option IrFunction
  | _, 0 => some f
  | b, Nat.succ rest =>
    match wireOneBlock f b with
    | some f' => wireGo f' (b + 1) rest
    | none => none

/-- CFG wiring (`wire_block_edges`): for each block in order, add the edges
dictated by its final instruction. -/
def wire_block_edges (f : IrFunction) : Option IrFunction :=
  wireGo f 0 f.blocks.length

/-! ## Constant folding (src/passes/src/constant_folding.rs) -/

/-- Lower bound of `i64`. -/
def i64Min : Int := -(2 ^ 63)

/-- Upper bound of `i64` plus one. -/
def i64Bound : Int := 2 ^ 63

/-- Representability in `i64`. -/
def i64InRange (v : Int) : Prop := i64Min ≤ v ∧ v < i64Bound

instance (v : Int) : Decidable (i64InRange v) := by
  unfold i64InRange; infer_instance

/-- Decimal parse of a string as `i64`, modelling Rust's
`str::parse::<i64>()`: an optional leading `+` or `-`, then one or more ASCII
digits, and the resulting value must fit in `i64`; anything else fails. -/
def parseI64 (s : String) : Option Int :=
  match s.data with
  | [] => none
  | c :: rest =>
    let signDigits : Int × List Char :=
      if c = '-' then (-1, rest) else if c = '+' then (1, rest) else (1, c :: rest)
    match signDigits with
    | (sign, digits) =>
      if digits = [] then none
      else if digits.all Char.isDigit then
        let n : Nat := digits.foldl (fun a d => a * 10 + (d.toNat - 48)) 0
        let v : Int := sign * (n : Int)
        if i64InRange v then some v else none
      else none

/-- Checked `i64` addition: `left + right` in the Rust source; a result out of
the `i64` range is an arithmetic-overflow program error (a debug build
aborts), modelled as `none`. -/
def i64CheckedAdd (a b : Int) : Option Int :=
  if i64InRange (a + b) then some (a + b) else none

/-- Checked `i64` multiplication, as `i64CheckedAdd`. -/
def i64CheckedMul (a b : Int) : Option Int :=
  if i64InRange (a * b) then some (a * b) else none

/-- Per-instruction action of `ConstantFoldPass::run_on_function`: the two
match arms of the source fold `Add` and `Mul` whose operands both parse as
`i64` into a `Const`; every other instruction (including `Sub` and `Div`,
which have no arm and fall into `_ => {}`) is returned unchanged.  `none`
models the overflow abort of the `i64` arithmetic. -/
def constantFoldInstr : IrInstruction → Option IrInstruction
  | .Add dest lhs rhs =>
    match parseI64 rhs, parseI64 lhs with
    | some right, some left =>
      (i64CheckedAdd left right).map (fun sum => .Const dest (.Int sum))
    | _, _ => some (.Add dest lhs rhs)
  | .Mul dest lhs rhs =>
    match parseI64 rhs, parseI64 lhs with
    | some right, some left =>
      (i64CheckedMul left right).map (fun product => .Const dest (.Int product))
    | _, _ => some (.Mul dest lhs rhs)
  | i => some i

/-- Fold every instruction of a list in order (`for instr in blocks.instrs`). -/
def constantFoldInstrs : List IrInstruction → Option (List IrInstruction)
  | [] => some []
  | i :: rest =>
    match constantFoldInstr i, constantFoldInstrs rest with
    | some i', some rest' => some (i' :: rest')
    | _, _ => none

/-- Fold every block of a list in order (`for blocks in function.blocks`). -/
def constantFoldBlocks : List IrBasicBlock → Option (List IrBasicBlock)
  | [] => some []
  | b :: rest =>
    match constantFoldInstrs b.instrs, constantFoldBlocks rest with
    | some instrs', some rest' => some ({ b with instrs := instrs' } :: rest')
    | _, _ => none

/-- `ConstantFoldPass::run_on_function`: fold all blocks in place and return
the changed flag, which the source returns as the constant `true`. -/
def constantFoldPass (f : IrFunction) : Option (IrFunction × Bool) :=
  (constantFoldBlocks f.blocks).map (fun blocks' => ({ f with blocks := blocks' }, true))

/-! ## Liveness (src/passes/src/liveness.rs)

`HashSet<String>` is embedded as a `List String` kept duplicate-free by
insertion, with equality of two sets tested extensionally (matching
`HashSet` equality, which is order-independent). -/

/-- Set insertion on the list model of `HashSet<String>`. -/
def sinsert (x : String) (s : List String) : List String :=
  if x ∈ s then s else s ++ [x]

/-- Set union via repeated insertion (`extend`). -/
def sunion (s t : List String) : List String := t.foldl (fun acc x => sinsert x acc) s

/-- Extensional equality of two list-modelled sets (`HashSet` `==`). -/
def seq (s t : List String) : Bool :=
  s.all (fun x => x ∈ t) && t.all (fun x => x ∈ s)

/-- Per-block def/use sets (`compute_block_def_use`): `defs` collects every
name defined in the block, `uses` every name read before it is defined. -/
def compute_block_def_use (block : IrBasicBlock) : List String × List String :=
  block.instrs.foldl
    (fun du instr =>
      let ds := instr.defs.foldl (fun d v => sinsert v d) du.1
      let us := instr.uses.foldl (fun u v => if v ∈ ds then u else sinsert v u) du.2
      (ds, us))
    ([], [])

/-- One backward sweep of the liveness fix-point (the `for b in (0..n).rev()`
body): recompute `LiveOut[b]` from successors' `LiveIn` and `LiveIn[b]` as
`use[b] ∪ (LiveOut[b] \ def[b])`, reporting whether anything changed.  Blocks
are visited in reverse order and each block sees the updates already made in
this sweep, as in the source. -/
def livenessSweep (blocks : List IrBasicBlock) (uses defs : List (List String)) :
    Nat → List (List String) → List (List String) → Bool →
    (List (List String) × List (List String) × Bool)
  | 0, live_out, live_in, changed => (live_out, live_in, changed)
  | Nat.succ b, live_out, live_in, changed =>
    let old_in := live_in.getD b []
    let old_out := live_out.getD b []
    let succs := (blocks.getD b ⟨"", [], [], []⟩).succs
    let new_out := succs.foldl (fun acc s => sunion acc (live_in.getD s [])) []
    let diff := new_out.filter (fun v => ¬ v ∈ defs.getD b [])
    let new_in := sunion (sunion [] (uses.getD b [])) diff
    let live_out' := live_out.set b new_out
    let live_in' := live_in.set b new_in
    let changed' := changed || ¬ (seq old_in new_in && seq old_out new_out)
    livenessSweep blocks uses defs b live_out' live_in' changed'

/-- The `loop { .. if !changed { break } }` of `compute_liveness`, with fuel;
`none` means the fuel ran out before the fix-point was reached (a model
artifact only: the backward solver is monotone). -/
def livenessLoop (blocks : List IrBasicBlock) (uses defs : List (List String)) :
    Nat → List (List String) → List (List String) →
    Option (List (List String) × List (List String))
  | 0, _, _ => none
  | Nat.succ fuel, live_out, live_in =>
    match livenessSweep blocks uses defs blocks.length live_out live_in false with
    | (live_out', live_in', changed) =>
      if changed then livenessLoop blocks uses defs fuel live_out' live_in'
      else some (live_out', live_in')

/-- `compute_liveness`: per-block def/use chains, then the backward fix-point;
returns `(live_out, live_in)` indexed by block. -/
def compute_liveness (fuel : Nat) (func : IrFunction) :
    Option (List (List String) × List (List String)) :=
  let du := func.blocks.map compute_block_def_use
  let defs := du.map Prod.fst
  let uses := du.map Prod.snd
  let n := func.blocks.length
  livenessLoop func.blocks uses defs fuel (List.replicate n []) (List.replicate n [])

/-! ## Dead-code elimination (src/passes/src/deadcode_removal.rs) -/

/-- The reverse walk inside `eliminate_deadcode` over one block, processing
the (already reversed) instruction list: an instruction whose single def is
not live is skipped (`continue`) — its uses are *not* added; otherwise its
def is removed from the live set, its uses are inserted, and it is kept. -/
def dceWalk : List IrInstruction → List String → List IrInstruction
  | [], _ => []
  | instr :: rest, live =>
    match instr.defs.head? with
    | some d =>
      if ¬ d ∈ live then dceWalk rest live
      else
        let live' := instr.uses.foldl (fun acc u => sinsert u acc) (live.erase d)
        instr :: dceWalk rest live'
    | none =>
      let live' := instr.uses.foldl (fun acc u => sinsert u acc) live
      instr :: dceWalk rest live'

/-- `eliminate_deadcode`: run liveness, then rebuild every block keeping only
instructions the reverse walk retains (the walk starts from `LiveOut[b]`).
The fuel feeds the liveness fix-point. -/
def eliminate_deadcode (fuel : Nat) (func : IrFunction) : Option IrFunction :=
  (compute_liveness fuel func).map (fun lo_li =>
    { func with blocks := func.blocks.enum.map (fun p =>
        { p.2 with instrs := (dceWalk p.2.instrs.reverse (lo_li.1.getD p.1 [])).reverse }) })

/-! ## SSA construction (src/ir/src/ssa.rs) -/

/-- `collect_defs`: map every variable to the ordered list of blocks that
contain a definition of it. -/
def collect_defs (func : IrFunction) : List (String × List Nat) :=
  func.blocks.enum.foldl
    (fun m p =>
      p.2.instrs.foldl
        (fun m' instr =>
          instr.defs.foldl
            (fun m'' v => aset v ((alookup v m'').getD [] ++ [p.1]) m'')
            m')
        m)
    []

/-- Sentinel for an uncomputed idom (`usize::MAX` in the source). -/
def idomUnknown : Nat := 2 ^ 64 - 1

/-- The two-finger `intersect` walk of `compute_idom`, with fuel for the
unbounded `while` loops; each step climbs the larger finger up the idom
chain (`f = idom_vec[f]`), `none` modelling either fuel exhaustion or the
out-of-bounds panic of indexing with a finger that escaped the vector. -/
def idomIntersect (idom_vec : List Nat) : Nat → Nat → Nat → Option Nat
  | 0, _, _ => none
  | Nat.succ fuel, f1, f2 =>
    if f1 = f2 then some f1
    else if f2 < f1 then
      match idom_vec.get? f1 with
      | some f1' => idomIntersect idom_vec fuel f1' f2
      | none => none
    else
      match idom_vec.get? f2 with
      | some f2' => idomIntersect idom_vec fuel f1 f2'
      | none => none

/-- Body of `compute_idom` for one block `b` (the `for b in 1..n` body):
skip when `preds` is empty or no pred has a computed idom; otherwise fold
`intersect` over the other computed preds and record whether `idom_vec[b]`
changed. -/
def idomStepBlock (fuel : Nat) (preds : List Nat) (idom_vec : List Nat) (b : Nat) :
    Option (List Nat × Bool) :=
  if preds = [] then some (idom_vec, false)
  else
    match preds.find? (fun p => idom_vec.getD p idomUnknown ≠ idomUnknown) with
    | none => some (idom_vec, false)
    | some first_p =>
      let others := preds.filter
        (fun p => p ≠ first_p ∧ idom_vec.getD p idomUnknown ≠ idomUnknown)
      let new_idom := others.foldl
        (fun acc p => acc.bind (fun cur => idomIntersect idom_vec fuel p cur))
        (some first_p)
      new_idom.map (fun nd =>
        if idom_vec.getD b idomUnknown ≠ nd then (idom_vec.set b nd, true)
        else (idom_vec, false))

/-- One full pass of `compute_idom` over blocks `1..n`, accumulating the
changed flag; later blocks see the updates of earlier ones, as in the
mutable `idom_vec` of the source. -/
def idomPass (fuel : Nat) (func : IrFunction) :
    Nat → List Nat → Bool → Option (List Nat × Bool)
  | 0, idom_vec, changed => some (idom_vec, changed)
  | Nat.succ rest, idom_vec, changed =>
    let b := func.blocks.length - (rest + 1)
    let preds := (func.blocks.getD b ⟨"", [], [], []⟩).preds
    match idomStepBlock fuel preds idom_vec b with
    | some (idom_vec', chg) => idomPass fuel func rest idom_vec' (changed || chg)
    | none => none

/-- Result of `compute_idom`: either the completed idom vector (the Rust
function then returns `Ok(())`), or the `panic!` raised when some block's
idom is still the sentinel after the fix-point — the source never constructs
an `Err`, its only failure mode is this process-aborting panic. -/
inductive IdomOutcome where
  | ok (idom : List (Nat × Nat))
  | panicked (block : Nat)
deriving DecidableEq

/-- Final check of `compute_idom`: walk the vector in order and panic at the
first block whose idom is still unknown, otherwise build the idom map. -/
def idomFinalize (idom_vec : List Nat) : IdomOutcome :=
  let bad := idom_vec.enum.find? (fun p => p.2 = idomUnknown)
  match bad with
  | some p => .panicked p.1
  | none => .ok idom_vec.enum

/-- Fix-point loop of `compute_idom` (`loop { .. if !changed break }`): run
full passes until one reports no change; the first fuel bounds the loop, the
second feeds each pass's `intersect` walks. -/
def idomFixLoop (passFuel : Nat) (func : IrFunction) : Nat → List Nat → Option (List Nat)
  | 0, _ => none
  | Nat.succ f, idom_vec =>
    match idomPass passFuel func (func.blocks.length - 1) idom_vec false with
    | some (idom_vec', changed) =>
      if changed then idomFixLoop passFuel func f idom_vec' else some idom_vec'
    | none => none

/-- `SSAFormation::compute_idom`: initialize `idom[0] = 0` and everything
else to the sentinel, iterate passes until no change (fuel bounds the
iteration), then run the panic check.  `none` is fuel exhaustion only. -/
def compute_idom (fuel : Nat) (func : IrFunction) : Option IdomOutcome :=
  let n := func.blocks.length
  let init := (List.replicate n idomUnknown).set 0 0
  (idomFixLoop fuel func fuel init).map idomFinalize

/-! ## SSA rename pass (src/ir/src/ssa.rs, `rename_pass`) -/

/-- Mutable state threaded through `rename_pass`: the function being
rewritten, the per-variable counters, and the per-variable stackMap of current
SSA names (top of stack = last element, matching `Vec::push`/`last`). -/
structure RenameState where
  func : IrFunction
  counter : List (String × Nat)
  stackMap : List (String × List String)
deriving DecidableEq

/-- `current_name`: top of the variable's stack, or the variable itself when
it has no stack or the stack is empty. -/
def current_name (var : String) (stackMap : List (String × List String)) : String :=
  match alookup var stackMap with
  | some stk => stk.getLast?.getD var
  | none => var

/-- `create_new_name`: post-increment the variable's counter (created at 0 on
first use), build `var$count`, and push it on the variable's stack. -/
def create_new_name (var : String) (counter : List (String × Nat))
    (stackMap : List (String × List String)) :
    String × List (String × Nat) × List (String × List String) :=
  let count := (alookup var counter).getD 0 + 1
  let new_var := var ++ "$" ++ toString count
  (new_var, aset var count counter,
    aset var ((alookup var stackMap).getD [] ++ [new_var]) stackMap)

/-- First loop of `rename_pass`: rewrite the `dest` of every φ in the block
with a fresh name. -/
def renamePhiDests (instrs : List IrInstruction) (counter : List (String × Nat))
    (stackMap : List (String × List String)) :
    List IrInstruction × List (String × Nat) × List (String × List String) :=
  instrs.foldl
    (fun acc instr =>
      match instr with
      | .Phi dest sources =>
        match create_new_name dest acc.2.1 acc.2.2 with
        | (new_dest, counter', stackMap') =>
          (acc.1 ++ [.Phi new_dest sources], counter', stackMap')
      | i => (acc.1 ++ [i], acc.2.1, acc.2.2))
    ([], counter, stackMap)

/-- Second loop of `rename_pass` for a single instruction: rewrite uses to
the current stack tops and the def to a fresh name, following the source's
match exactly — note that `Const`, `Br`, `Jmp` and `Phi` fall into the
`_ => {}` arm and are left untouched here. -/
def renameInstr (instr : IrInstruction) (counter : List (String × Nat))
    (stackMap : List (String × List String)) :
    IrInstruction × List (String × Nat) × List (String × List String) :=
  match instr with
  | .Assign lhs rhs =>
    let rhs' := current_name rhs stackMap
    match create_new_name lhs counter stackMap with
    | (lhs', counter', stackMap') => (.Assign lhs' rhs', counter', stackMap')
  | .Not dest args =>
    let args' := current_name args stackMap
    match create_new_name dest counter stackMap with
    | (dest', counter', stackMap') => (.Not dest' args', counter', stackMap')
  | .Add dest lhs rhs =>
    match create_new_name dest counter stackMap with
    | (dest', counter', stackMap') =>
      (.Add dest' (current_name lhs stackMap) (current_name rhs stackMap), counter', stackMap')
  | .Mul dest lhs rhs =>
    match create_new_name dest counter stackMap with
    | (dest', counter', stackMap') =>
      (.Mul dest' (current_name lhs stackMap) (current_name rhs stackMap), counter', stackMap')
  | .Sub dest lhs rhs =>
    match create_new_name dest counter stackMap with
    | (dest', counter', stackMap') =>
      (.Sub dest' (current_name lhs stackMap) (current_name rhs stackMap), counter', stackMap')
  | .Div dest lhs rhs =>
    match create_new_name dest counter stackMap with
    | (dest', counter', stackMap') =>
      (.Div dest' (current_name lhs stackMap) (current_name rhs stackMap), counter', stackMap')
  | .Eq dest lhs rhs =>
    match create_new_name dest counter stackMap with
    | (dest', counter', stackMap') =>
      (.Eq dest' (current_name lhs stackMap) (current_name rhs stackMap), counter', stackMap')
  | .Lt dest lhs rhs =>
    match create_new_name dest counter stackMap with
    | (dest', counter', stackMap') =>
      (.Lt dest' (current_name lhs stackMap) (current_name rhs stackMap), counter', stackMap')
  | .Gt dest lhs rhs =>
    match create_new_name dest counter stackMap with
    | (dest', counter', stackMap') =>
      (.Gt dest' (current_name lhs stackMap) (current_name rhs stackMap), counter', stackMap')
  | .Ge dest lhs rhs =>
    match create_new_name dest counter stackMap with
    | (dest', counter', stackMap') =>
      (.Ge dest' (current_name lhs stackMap) (current_name rhs stackMap), counter', stackMap')
  | .Le dest lhs rhs =>
    match create_new_name dest counter stackMap with
    | (dest', counter', stackMap') =>
      (.Le dest' (current_name lhs stackMap) (current_name rhs stackMap), counter', stackMap')
  | .Or dest lhs rhs =>
    match create_new_name dest counter stackMap with
    | (dest', counter', stackMap') =>
      (.Or dest' (current_name lhs stackMap) (current_name rhs stackMap), counter', stackMap')
  | .And dest lhs rhs =>
    match create_new_name dest counter stackMap with
    | (dest', counter', stackMap') =>
      (.And dest' (current_name lhs stackMap) (current_name rhs stackMap), counter', stackMap')
  | .Call target args dest =>
    let args' := args.map (fun a => current_name a stackMap)
    match dest with
    | some d =>
      match create_new_name d counter stackMap with
      | (d', counter', stackMap') => (.Call target args' (some d'), counter', stackMap')
    | none => (.Call target args' none, counter, stackMap)
  | .Print values => (.Print (values.map (fun a => current_name a stackMap)), counter, stackMap)
  | .Ret args => (.Ret (args.map (fun a => current_name a stackMap)), counter, stackMap)
  | i => (i, counter, stackMap)

/-- Second loop of `rename_pass` over the whole block. -/
def renameInstrs (instrs : List IrInstruction) (counter : List (String × Nat))
    (stackMap : List (String × List String)) :
    List IrInstruction × List (String × Nat) × List (String × List String) :=
  instrs.foldl
    (fun acc instr =>
      match renameInstr instr acc.2.1 acc.2.2 with
      | (i', counter', stackMap') => (acc.1 ++ [i'], counter', stackMap'))
    ([], counter, stackMap)

/-- Successor φ-filling of `rename_pass` for one successor block: for every φ
in the successor, find the index of the current block in the successor's
`preds` (its absence is the `unwrap` panic, hence `none`) and store the
current name of the φ's destination at that source slot. -/
def fillSuccPhis (block_id : Nat) (stackMap : List (String × List String))
    (succ_block : IrBasicBlock) : Option IrBasicBlock :=
  let instrs' := succ_block.instrs.foldl
    (fun acc instr =>
      match acc with
      | none => none
      | some done =>
        match instr with
        | .Phi dest sources =>
          match succ_block.preds.findIdx? (fun p => p = block_id) with
          | some idx =>
            some (done ++ [.Phi dest (sources.set idx (some (current_name dest stackMap)))])
          | none => none
        | i => some (done ++ [i]))
    (some [])
  instrs'.map (fun l => { succ_block with instrs := l })

/-- Final loop of `rename_pass`: for every def of the (already renamed) block
pop that variable's stack — but only when the defined name is a key of
`stackMap`, reproducing the source's `contains_key` guard on the post-rename
names. -/
def popBlockDefs (instrs : List IrInstruction) (stackMap : List (String × List String)) :
    List (String × List String) :=
  instrs.foldl
    (fun stks instr =>
      instr.defs.foldl
        (fun stks' var =>
          match alookup var stks' with
          | some stk => aset var stk.dropLast stks'
          | none => stks')
        stks)
    stackMap

/-- `rename_pass`: rename the φ-heads and body of the block, fill the φ
sources of the successors, recurse into the dominator-tree children, then
run the pop loop.  `fuel` bounds the recursion depth (the dominator tree of
a well-formed input is finite); `none` is fuel exhaustion or a missing pred
in a successor's φ (an `unwrap` panic in the source). -/
def rename_pass (dom_tree : List (Nat × List Nat)) :
    Nat → Nat → RenameState → Option RenameState
  | 0, _, _ => none
  | Nat.succ fuel, block_id, st =>
    let blk := st.func.blocks.getD block_id ⟨"", [], [], []⟩
    match renamePhiDests blk.instrs st.counter st.stackMap with
    | (instrs1, counter1, stackMap1) =>
      match renameInstrs instrs1 counter1 stackMap1 with
      | (instrs2, counter2, stackMap2) =>
        let func2 := st.func.modifyBlock block_id (fun b => { b with instrs := instrs2 })
        let afterSuccs := blk.succs.foldl
          (fun acc succ =>
            acc.bind (fun f =>
              match f.blocks.get? succ with
              | some sb =>
                (fillSuccPhis block_id stackMap2 sb).map (fun sb' =>
                  f.modifyBlock succ (fun _ => sb'))
              | none => none))
          (some func2)
        let children := (alookup block_id dom_tree).getD []
        let afterChildren := children.foldl
          (fun acc child =>
            acc.bind (fun s => rename_pass dom_tree fuel child s))
          (afterSuccs.map (fun f => RenameState.mk f counter2 stackMap2))
        afterChildren.map (fun s =>
          let finalBlk := s.func.blocks.getD block_id ⟨"", [], [], []⟩
          { s with stackMap := popBlockDefs finalBlk.instrs s.stackMap })

/-! ## Machine IR (src/riscv-backend/src/machine_ir.rs) -/

/-- Virtual or physical RISC-V registers (`machine_ir::VReg`).  Ids of
virtual registers are an `i32` counter starting at 0 in the source and only
ever incremented, so `Nat` is faithful for every reachable id. -/
inductive VReg where
  | Virtual (id : Nat)
  | T0 | T1 | T2 | T3 | T4 | T5 | T6
  | A0 | A1 | A2 | A3 | A4 | A5 | A6 | A7
  | S0 | S1 | S2 | S3 | S4 | S5 | S6 | S7 | S8 | S9 | S10 | S11
  | RA | SP | FP | GP
deriving DecidableEq

/-- Machine instructions (`machine_ir::MachineInstr`), 1:1 with the Rust
variants. -/
inductive MachineInstr where
  | Addi (rd rs1 : VReg) (imm : Int)
  | Add (rd rs1 rs2 : VReg)
  | Mul (rd rs1 rs2 : VReg)
  | Sub (rd rs1 rs2 : VReg)
  | Div (rd rs1 rs2 : VReg)
  | Li (rd : VReg) (imm : Int)
  | Mv (rd rs1 : VReg)
  | Sw (rs1 : VReg) (offset : Int) (base : VReg)
  | Jal (rd : VReg) (label : String)
  | Jmp (label : String)
  | Beqz (rs1 : VReg) (label : String)
  | Beq (rs1 rs2 : VReg) (label : String)
  | Ret (rd : Option VReg)
  | Call (func : String)
  | Print (args : List VReg)
deriving DecidableEq

namespace MachineInstr

/-- Registers written (`MachineInstr::defs`). -/
def defs : MachineInstr → List VReg
  | .Add rd _ _ | .Addi rd _ _ | .Mul rd _ _ | .Sub rd _ _ | .Div rd _ _
  | .Mv rd _ | .Li rd _ => [rd]
  | _ => []

/-- Registers read (`MachineInstr::uses`). -/
def uses : MachineInstr → List VReg
  | .Add _ rs1 rs2 | .Mul _ rs1 rs2 | .Sub _ rs1 rs2 | .Div _ rs1 rs2 => [rs1, rs2]
  | .Beq rs1 rs2 _ => [rs1, rs2]
  | .Addi _ rs1 _ | .Sw rs1 _ _ | .Beqz rs1 _ | .Mv _ rs1 => [rs1]
  | _ => []

end MachineInstr

/-- A machine block (`machine_ir::MachineBlock`). -/
structure MachineBlock where
  name : String
  instrs : List MachineInstr
  succs : List Nat
deriving DecidableEq

/-- A machine function (`machine_ir::MachineFunc`). -/
structure MachineFunc where
  name : String
  args : List VReg
  blocks : List MachineBlock
  label_to_idx : List (String × Nat)
deriving DecidableEq

/-! ## Instruction selection (src/riscv-backend/src/instruction_sel.rs) -/

/-- State of the selector's closure `allocate_reg`: the `name → VReg` map and
the fresh-id counter. -/
structure SelState where
  vreg_mapping : List (String × VReg)
  next_vreg : Nat
deriving DecidableEq

/-- `allocate_reg`: return the virtual register already mapped to `name`, or
mint `Virtual(next_vreg)` for it. -/
def allocate_reg (name : String) (st : SelState) : VReg × SelState :=
  match alookup name st.vreg_mapping with
  | some r => (r, st)
  | none =>
    let r := VReg.Virtual st.next_vreg
    (r, ⟨aset name r st.vreg_mapping, st.next_vreg + 1⟩)

/-- Argument register for call argument `i < 8`. -/
def argReg : Nat → VReg
  | 0 => .A0
  | 1 => .A1
  | 2 => .A2
  | 3 => .A3
  | 4 => .A4
  | 5 => .A5
  | 6 => .A6
  | _ => .A7

/-- Lowering of one IR instruction (the match inside `select_instructions`):
appends zero or more machine instructions.  `none` arises exactly where the
source indexes `args[0]` under its `args.is_empty()` check in the `Ret` arm —
an out-of-bounds panic.  Instructions without an arm (`Eq`, `Lt`, …, `Phi`,
`Print`, `Not`, `Or`, `And`) emit nothing, as in the source's `_ => {}`. -/
def selectInstr (instr : IrInstruction) (st : SelState) :
    Option (List MachineInstr × SelState) :=
  match instr with
  | .Const dest value =>
    let (rd, st1) := allocate_reg dest st
    let imm : Int := match value with
      | .Int i => i
      | .Bool b => if b then 1 else 0
    some ([.Li rd imm], st1)
  | .Assign lhs rhs =>
    let (rd, st1) := allocate_reg lhs st
    let (rs1, st2) := allocate_reg rhs st1
    some ([.Mv rd rs1], st2)
  | .Add dest lhs rhs =>
    let (rd, st1) := allocate_reg dest st
    let (rs1, st2) := allocate_reg lhs st1
    let (rs2, st3) := allocate_reg rhs st2
    some ([.Add rd rs1 rs2], st3)
  | .Mul dest lhs rhs =>
    let (rd, st1) := allocate_reg dest st
    let (rs1, st2) := allocate_reg lhs st1
    let (rs2, st3) := allocate_reg rhs st2
    some ([.Mul rd rs1 rs2], st3)
  | .Sub dest lhs rhs =>
    let (rd, st1) := allocate_reg dest st
    let (rs1, st2) := allocate_reg lhs st1
    let (rs2, st3) := allocate_reg rhs st2
    some ([.Sub rd rs1 rs2], st3)
  | .Div dest lhs rhs =>
    let (rd, st1) := allocate_reg dest st
    let (rs1, st2) := allocate_reg lhs st1
    let (rs2, st3) := allocate_reg rhs st2
    some ([.Div rd rs1 rs2], st3)
  | .Call target_func args dest =>
    let moves := args.enum.foldl
      (fun acc p =>
        let (src_reg, st') := allocate_reg p.2 acc.2
        if p.1 < 8 then
          (acc.1 ++ [MachineInstr.Mv (argReg p.1) src_reg], st')
        else
          (acc.1 ++ [MachineInstr.Sw src_reg (((p.1 : Int) - 8) * 8) .SP], st'))
      (([] : List MachineInstr), st)
    let withJal := moves.1 ++ [MachineInstr.Jal .RA target_func]
    match dest with
    | some d =>
      let (return_value, st2) := allocate_reg d moves.2
      some (withJal ++ [MachineInstr.Mv return_value .A0], st2)
    | none => some (withJal, moves.2)
  | .Br cond then_lbl else_lbl =>
    let (rs1, st1) := allocate_reg cond st
    some ([.Beqz rs1 else_lbl, .Jmp then_lbl], st1)
  | .Jmp label => some ([.Jmp label], st)
  | .Ret args =>
    if args = [] then
      match args.head? with
      | some a =>
        let (r, st1) := allocate_reg a st
        some ([.Ret (some r)], st1)
      | none => none
    else
      some ([.Ret none], st)
  | _ => some ([], st)

/-- Selection over one block's instructions. -/
def selectBlockInstrs : List IrInstruction → SelState →
    Option (List MachineInstr × SelState)
  | [], st => some ([], st)
  | i :: rest, st =>
    match selectInstr i st with
    | some (ms, st1) =>
      match selectBlockInstrs rest st1 with
      | some (ms', st2) => some (ms ++ ms', st2)
      | none => none
    | none => none

/-- `select_instructions`: lower every block of the function, threading the
`allocate_reg` state across blocks; the machine function inherits name and
label map, and each machine block inherits its block's label and succs. -/
def select_instructions (func : IrFunction) : Option MachineFunc :=
  let init : Option (List MachineBlock × SelState) := some ([], ⟨[], 0⟩)
  (func.blocks.foldl
    (fun acc block =>
      acc.bind (fun p =>
        (selectBlockInstrs block.instrs p.2).map (fun q =>
          (p.1 ++ [⟨block.label, q.1, block.succs⟩], q.2))))
    init).map
    (fun p => ⟨func.name, [], p.1, func.label_to_idx⟩)

/-! ## Linear-scan register allocation (src/riscv-backend/src/register_alloc.rs) -/

/-- An interval being built (`register_alloc::Interval`); the Rust field
`end` is spelled `iend` (`end` is a Lean keyword). -/
structure Interval where
  start : Nat
  iend : Nat
  phy_reg : Option VReg
  mark_spilled : Bool
deriving DecidableEq

/-- An interval with its virtual register (`register_alloc::LiveIntervals`). -/
structure LiveIntervals where
  vreg : VReg
  start : Nat
  iend : Nat
  phy_reg : Option VReg
  mark_spilled : Bool
deriving DecidableEq

/-- The allocator's register pool (`ALL_REGS`), in the source's order; the
commented-out `S0`, `RA`, `SP`, `FP`, `GP` of the source are absent. -/
def ALL_REGS : List VReg :=
  [.T0, .T1, .T2, .T3, .T4, .T5, .T6,
   .A0, .A1, .A2, .A3, .A4, .A5, .A6, .A7,
   .S1, .S2, .S3, .S4, .S5, .S6, .S7, .S8, .S9, .S10, .S11]

/-- Per-instruction body of `build_intervals` at global position `pos`:
defs create-or-keep an interval and refresh its `start` with `min`; uses
create-or-keep and push its `iend` up with `max`. -/
def buildIntervalsInstr (pos : Nat) (instr : MachineInstr)
    (intervals : List (VReg × Interval)) : List (VReg × Interval) :=
  let afterDefs := instr.defs.foldl
    (fun acc d =>
      let iv := (alookup d acc).getD ⟨pos, pos, none, false⟩
      aset d { iv with start := min iv.start pos } acc)
    intervals
  instr.uses.foldl
    (fun acc u =>
      let iv := (alookup u acc).getD ⟨pos, pos, none, false⟩
      aset u { iv with iend := max iv.iend pos } acc)
    afterDefs

/-- `LinearScan::build_intervals`: walk every block's instructions in order,
numbering them with one global counter (the `instrs_global_pos` map of the
source), and accumulate the interval of every register observed.  The result
is keyed in first-encounter order; the Rust `HashMap` iteration order is
unspecified, which is harmless downstream because `linear_scan` sorts by
`start` (the callers below use pairwise distinct starts). -/
def build_intervals (mf : MachineFunc) : List (VReg × Interval) :=
  ((mf.blocks.foldl
    (fun acc block =>
      block.instrs.foldl
        (fun acc' instr => (acc'.1 + 1, buildIntervalsInstr acc'.1 instr acc'.2))
        acc)
    (0, [])) : Nat × List (VReg × Interval)).2

/-- Stable insertion by key (`≤` keeps earlier elements in front), the
building block of the model of `Vec::sort_by_key` (which is stable). -/
def insortKey {α : Type} (key : α → Nat) (x : α) : List α → List α
  | [] => [x]
  | y :: ys => if key x ≤ key y then x :: y :: ys else y :: insortKey key x ys

/-- Stable sort by key, modelling `Vec::sort_by_key`. -/
def sortByKey {α : Type} (key : α → Nat) (l : List α) : List α :=
  l.foldr (insortKey key) []

/-- The expire step of `linear_scan` (`active.retain(..)`): drop every active
interval that ended before `start`, returning its register (when it holds
one) to the free list in traversal order. -/
def expire (start : Nat) : List LiveIntervals → List VReg → List LiveIntervals × List VReg
  | [], free => ([], free)
  | iv :: rest, free =>
    if iv.iend < start then
      expire start rest (match iv.phy_reg with | some r => free ++ [r] | none => free)
    else
      match expire start rest free with
      | (act, free') => (iv :: act, free')

/-- Scan state: intervals already processed (their final output values), the
`active` list (kept sorted by `iend` ascending), and the free registers. -/
structure ScanState where
  processed : List LiveIntervals
  active : List LiveIntervals
  free_regs : List VReg
deriving DecidableEq

/-- One iteration of the scan loop of `linear_scan` for the interval `curr`
(which enters with `phy_reg = none`, `mark_spilled = false`, as built by the
collection step): expire, then either allocate a free register, or run the
spill heuristic.  In the heuristic, `worst` is popped off the end of the
`end`-sorted active list; when `worst.iend > curr.iend` the register is
stolen (`worst.phy_reg.take()`) and only `curr` — not the mutated `worst`
clone, which the source discards — is pushed back.  `none` models the
`unwrap` panic when `active` is empty with no free register. -/
def scanStep (st : ScanState) (curr : LiveIntervals) : Option ScanState :=
  match expire curr.start st.active st.free_regs with
  | (active1, free1) =>
    match popLast free1 with
    | some (free2, reg) =>
      let curr' := { curr with phy_reg := some reg }
      some ⟨st.processed ++ [curr'], sortByKey LiveIntervals.iend (active1 ++ [curr']),
        free2⟩
    | none =>
      match popLast active1 with
      | none => none
      | some (active2, worst) =>
        if curr.iend < worst.iend then
          let curr' := { curr with phy_reg := worst.phy_reg, mark_spilled := false }
          some ⟨st.processed ++ [curr'],
            sortByKey LiveIntervals.iend (active2 ++ [curr']), free1⟩
        else
          let curr' := { curr with mark_spilled := true }
          some ⟨st.processed ++ [curr'], active2 ++ [worst], free1⟩

/-- Fold of `scanStep` over the sorted interval list. -/
def scanGo : ScanState → List LiveIntervals → Option ScanState
  | st, [] => some st
  | st, iv :: rest =>
    match scanStep st iv with
    | some st' => scanGo st' rest
    | none => none

/-- `LinearScan::linear_scan`: build the `LiveIntervals` records (resetting
`phy_reg`/`mark_spilled`), sort by `start` (stable), scan, and return the
final per-register records — the `intervals.get_mut` write-back of the
source only mutates the argument map, which its caller discards, so it does
not appear in the output.  The result list is keyed by `vreg` in processing
order (the source collects it into a `HashMap`). -/
def linear_scan (intervals : List (VReg × Interval)) : Option (List LiveIntervals) :=
  let live_intervals := intervals.map
    (fun p => LiveIntervals.mk p.1 p.2.start p.2.iend none false)
  let sorted := sortByKey LiveIntervals.start live_intervals
  (scanGo ⟨[], [], ALL_REGS⟩ sorted).map ScanState.processed

/-- `LinearScan::run` restricted to one function: build intervals, scan. -/
def allocFunc (mf : MachineFunc) : Option (List LiveIntervals) :=
  linear_scan (build_intervals mf)

/-! ## Assembly emission, prologue (src/riscv-backend/src/riscv_emission.rs) -/

/-- Checked `usize` subtraction: underflow of unsigned arithmetic is a
program error in Rust (a debug build aborts there), modelled as `none`. -/
def usizeSub (a b : Nat) : Option Nat := if b ≤ a then some (a - b) else none

/-- Frame size computed by `emit_riscv`: 8 bytes per spilled register (the
source's loop over `live_intervals` incrementing `stack_frame`). -/
def stack_frame_of (out : List LiveIntervals) : Nat :=
  8 * (out.filter (fun iv => iv.mark_spilled)).length

/-- The prologue lines of `emit_riscv` for a given `stack_frame`: emitted
only when the frame is non-empty; the `ra` and `s0` store offsets are the
source's `stack_frame - 8` and `stack_frame - 16` on `usize`. -/
def emitPrologue (stack_frame : Nat) : Option (List String) :=
  if stack_frame > 0 then
    (usizeSub stack_frame 8).bind (fun ra_off =>
      (usizeSub stack_frame 16).map (fun s0_off =>
        ["  addi sp, sp, -" ++ toString stack_frame,
         "  sd ra, " ++ toString ra_off ++ "(sp)",
         "  sd s0, " ++ toString s0_off ++ "(sp)",
         "  mv s0, sp"]))
  else some []

/-- Allocation followed by the prologue computation of `emit_riscv` for one
function. -/
def emitPrologueFor (mf : MachineFunc) : Option (List String) :=
  (allocFunc mf).bind (fun out => emitPrologue (stack_frame_of out))

/-! ## Concrete inputs used by the claim theorems -/

/-- Two blocks; block 0 ends in a non-terminator, block 1 (the last block)
exists and ends in `Ret`.  No edges are wired yet. -/
def c4Func : IrFunction :=
  { name := "f", args := [],
    blocks := [
      ⟨"b0", [.Const "x" (.Int 1)], [], []⟩,
      ⟨"b1", [.Ret []], [], []⟩],
    label_to_idx := [("b0", 0), ("b1", 1)] }

/-- Three blocks, the first two ending in non-terminators, the last in
`Ret`: exposes which fall-through edges the wiring adds. -/
def c4Func3 : IrFunction :=
  { name := "g", args := [],
    blocks := [
      ⟨"b0", [.Const "x" (.Int 1)], [], []⟩,
      ⟨"b1", [.Const "y" (.Int 2)], [], []⟩,
      ⟨"b2", [.Ret []], [], []⟩],
    label_to_idx := [("b0", 0), ("b1", 1), ("b2", 2)] }

/-- One block holding a `Call` with destination `d` (never used afterwards)
and a `Ret`. -/
def c3Func : IrFunction :=
  { name := "g", args := [],
    blocks := [⟨"entry", [.Call "f" [] (some "d"), .Ret []], [], []⟩],
    label_to_idx := [("entry", 0)] }

/-- One block with a single definition of `x` (the rename-stack scenario). -/
def c2Func : IrFunction :=
  { name := "one", args := [],
    blocks := [⟨"entry", [.Assign "x" "5"], [], []⟩],
    label_to_idx := [("entry", 0)] }

/-- Entry plus a second block with no predecessors: its idom stays at the
sentinel through every pass of the fix-point. -/
def c8Func : IrFunction :=
  { name := "bad", args := [],
    blocks := [
      ⟨"entry", [.Ret []], [], []⟩,
      ⟨"orphan", [.Ret []], [], []⟩],
    label_to_idx := [("entry", 0), ("orphan", 1)] }

/-- One block whose only instruction is a `Sub` of two decimal literals. -/
def c6Func : IrFunction :=
  { name := "s", args := [],
    blocks := [⟨"entry", [.Sub "d" "5" "3"], [], []⟩],
    label_to_idx := [("entry", 0)] }

/-- One block ending in `Ret` with no arguments. -/
def retEmptyFunc : IrFunction :=
  { name := "f", args := [],
    blocks := [⟨"entry", [.Ret []], [], []⟩], label_to_idx := [("entry", 0)] }

/-- One block: `Const x, 5` then `Ret [x]`. -/
def retOneFunc : IrFunction :=
  { name := "f", args := [],
    blocks := [⟨"entry", [.Const "x" (.Int 5), .Ret ["x"]], [], []⟩],
    label_to_idx := [("entry", 0)] }

/-- Register-pressure function: 28 virtual registers defined at positions
0–27, the first 27 of them used again at positions 28–54, so that
`Virtual 0 .. Virtual 26` are live across the whole range, `Virtual 27`'s
interval is the point `[27,27]`, and all 28 intervals overlap pairwise.
The scan hands the 26 pool registers to `Virtual 0 .. Virtual 25`, spills
`Virtual 26`, and then runs the steal heuristic on `Virtual 27` against
`worst = Virtual 25`. -/
def pressureFunc : MachineFunc :=
  { name := "pressure", args := [],
    blocks := [⟨"entry",
      (List.range 28).map (fun i => MachineInstr.Li (.Virtual i) 0) ++
      (List.range 27).map (fun i => MachineInstr.Beqz (.Virtual i) "entry"),
      []⟩],
    label_to_idx := [("entry", 0)] }

/-- Variant with 29 virtual registers whose scan spills exactly two of them
(`Virtual 26` and `Virtual 27`), giving a 16-byte stack frame. -/
def spill2Func : MachineFunc :=
  { name := "spill2", args := [],
    blocks := [⟨"entry",
      (List.range 29).map (fun i => MachineInstr.Li (.Virtual i) 0) ++
      (List.range 26).map (fun i => MachineInstr.Beqz (.Virtual i) "entry") ++
      [MachineInstr.Beqz (.Virtual 26) "entry", MachineInstr.Beqz (.Virtual 27) "entry"],
      []⟩],
    label_to_idx := [("entry", 0)] }

/-- Lookup of one register's record in an allocation result. -/
def findIv (v : VReg) (out : List LiveIntervals) : Option LiveIntervals :=
  out.find? (fun iv => iv.vreg = v)

/-! ## Allocator pool lemmas (towards C9) -/

/-- An interval record whose assigned register, if any, lies in the pool. -/
def ivOK (iv : LiveIntervals) : Prop :=
  ∀ r, iv.phy_reg = some r → r ∈ ALL_REGS

/-- Scan-state invariant: every register mentioned anywhere in the state is
drawn from the pool. -/
def scanInv (st : ScanState) : Prop :=
  (∀ iv ∈ st.processed, ivOK iv) ∧ (∀ iv ∈ st.active, ivOK iv) ∧
    (∀ r ∈ st.free_regs, r ∈ ALL_REGS)

theorem mem_of_mem_insortKey {α : Type} (key : α → Nat) (a x : α) :
    ∀ l : List α, x ∈ insortKey key a l → x = a ∨ x ∈ l := by
  intro l
  induction l with
  | nil => simp [insortKey]
  | cons y ys ih =>
    simp only [insortKey]
    by_cases h : key a ≤ key y
    · rw [if_pos h]
      intro hx
      rcases List.mem_cons.mp hx with h' | h'
      · exact Or.inl h'
      · exact Or.inr h'
    · rw [if_neg h]
      intro hx
      rcases List.mem_cons.mp hx with h' | h'
      · exact Or.inr (by simp [h'])
      · rcases ih h' with h'' | h''
        · exact Or.inl h''
        · exact Or.inr (List.mem_cons_of_mem _ h'')

theorem mem_of_mem_sortByKey {α : Type} (key : α → Nat) (x : α) :
    ∀ l : List α, x ∈ sortByKey key l → x ∈ l := by
  intro l
  induction l with
  | nil => simp [sortByKey]
  | cons y ys ih =>
    intro hx
    simp only [sortByKey, List.foldr] at hx
    rcases mem_of_mem_insortKey key y x _ hx with h | h
    · simp [h]
    · exact List.mem_cons_of_mem _ (ih h)

theorem popLast_mem {α : Type} :
    ∀ (l front : List α) (x : α), popLast l = some (front, x) →
      x ∈ l ∧ ∀ y ∈ front, y ∈ l := by
  intro l
  induction l with
  | nil => intro front x h; simp [popLast] at h
  | cons a rest ih =>
    intro front x h
    match rest, h with
    | [], h => simp [popLast] at h; simp [h]
    | b :: rest', h =>
      simp only [popLast] at h
      cases hh : popLast (b :: rest') with
      | none => rw [hh] at h; simp at h
      | some p =>
        rw [hh] at h
        simp at h
        rcases h with ⟨hfront, hx⟩
        rcases ih p.1 p.2 hh with ⟨hmem, hsub⟩
        constructor
        · subst hx; exact List.mem_cons_of_mem _ hmem
        · intro y hy
          rw [← hfront] at hy
          rcases List.mem_cons.mp hy with h' | h'
          · simp [h']
          · exact List.mem_cons_of_mem _ (hsub y h')

theorem expire_mem {s : Nat} :
    ∀ (act : List LiveIntervals) (free : List VReg),
      (∀ iv ∈ act, ivOK iv) → (∀ r ∈ free, r ∈ ALL_REGS) →
      (∀ iv ∈ (expire s act free).1, ivOK iv) ∧
        (∀ r ∈ (expire s act free).2, r ∈ ALL_REGS) := by
  intro act
  induction act with
  | nil => intro free _ hf; simpa [expire] using hf
  | cons iv rest ih =>
    intro free ha hf
    simp only [expire]
    by_cases h : iv.iend < s
    · simp only [if_pos h]
      refine ih _ (fun j hj => ha j (List.mem_cons_of_mem _ hj)) ?_
      cases hr : iv.phy_reg with
      | none => simpa [hr] using hf
      | some r =>
        simp only [hr]
        intro q hq
        rcases List.mem_append.mp hq with h' | h'
        · exact hf q h'
        · have := ha iv (List.mem_cons_self _ _) q
          simp at h'
          subst h'
          exact this hr
    · simp only [if_neg h]
      have hrest := ih free (fun j hj => ha j (List.mem_cons_of_mem _ hj)) hf
      cases he : expire s rest free with
      | mk act' free' =>
        rw [he] at hrest
        constructor
        · intro j hj
          rcases List.mem_cons.mp hj with h' | h'
          · subst h'; exact ha j (List.mem_cons_self _ _)
          · exact hrest.1 j h'
        · exact hrest.2

theorem scanStep_inv (st : ScanState) (curr : LiveIntervals) (st' : ScanState)
    (hinv : scanInv st) (hc : ivOK curr) (h : scanStep st curr = some st') :
    scanInv st' := by
  rcases hinv with ⟨hp, ha, hf⟩
  have hexp := expire_mem st.active st.free_regs ha hf (s := curr.start)
  simp only [scanStep] at h
  cases he : expire curr.start st.active st.free_regs with
  | mk active1 free1 =>
    rw [he] at h hexp
    cases hpop : popLast free1 with
    | some p =>
      rw [hpop] at h
      simp at h
      have hr : p.2 ∈ ALL_REGS := hexp.2 p.2 (popLast_mem free1 p.1 p.2 (by simpa using hpop)).1
      have hfree2 : ∀ r ∈ p.1, r ∈ ALL_REGS := fun r hr' =>
        hexp.2 r ((popLast_mem free1 p.1 p.2 (by simpa using hpop)).2 r hr')
      subst h
      refine ⟨?_, ?_, by simpa using hfree2⟩
      · intro iv hiv
        rcases List.mem_append.mp hiv with h' | h'
        · exact hp iv h'
        · simp at h'
          subst h'
          intro r hr'
          simp at hr'
          subst hr'
          exact hr
      · intro iv hiv
        have := mem_of_mem_sortByKey LiveIntervals.iend iv _ hiv
        rcases List.mem_append.mp this with h' | h'
        · exact hexp.1 iv h'
        · simp at h'
          subst h'
          intro r hr'
          simp at hr'
          subst hr'
          exact hr
    | none =>
      rw [hpop] at h
      cases hpa : popLast active1 with
      | none => rw [hpa] at h; simp at h
      | some q =>
        rw [hpa] at h
        simp at h
        have hworst : ivOK q.2 :=
          hexp.1 q.2 (popLast_mem active1 q.1 q.2 (by simpa using hpa)).1
        have hact2 : ∀ iv ∈ q.1, ivOK iv := fun iv hiv =>
          hexp.1 iv ((popLast_mem active1 q.1 q.2 (by simpa using hpa)).2 iv hiv)
        by_cases hcmp : curr.iend < q.2.iend
        · rw [if_pos hcmp] at h
          simp only [Option.some.injEq] at h
          subst h
          refine ⟨?_, ?_, hexp.2⟩
          · intro iv hiv
            rcases List.mem_append.mp hiv with h' | h'
            · exact hp iv h'
            · simp at h'
              subst h'
              intro r hr'
              simp at hr'
              exact hworst r hr'
          · intro iv hiv
            have := mem_of_mem_sortByKey LiveIntervals.iend iv _ hiv
            rcases List.mem_append.mp this with h' | h'
            · exact hact2 iv h'
            · simp at h'
              subst h'
              intro r hr'
              simp at hr'
              exact hworst r hr'
        · rw [if_neg hcmp] at h
          simp only [Option.some.injEq] at h
          subst h
          refine ⟨?_, ?_, hexp.2⟩
          · intro iv hiv
            rcases List.mem_append.mp hiv with h' | h'
            · exact hp iv h'
            · simp at h'
              subst h'
              intro r hr'
              simp only at hr'
              exact hc r hr'
          · intro iv hiv
            rcases List.mem_append.mp hiv with h' | h'
            · exact hact2 iv h'
            · simp at h'
              subst h'
              exact hworst

theorem scanGo_inv :
    ∀ (l : List LiveIntervals) (st st' : ScanState),
      scanInv st → (∀ iv ∈ l, ivOK iv) → scanGo st l = some st' → scanInv st' := by
  intro l
  induction l with
  | nil => intro st st' hinv _ h; simp [scanGo] at h; subst h; exact hinv
  | cons iv rest ih =>
    intro st st' hinv hl h
    simp only [scanGo] at h
    cases hs : scanStep st iv with
    | none => rw [hs] at h; simp at h
    | some st1 =>
      rw [hs] at h
      exact ih st1 st'
        (scanStep_inv st iv st1 hinv (hl iv (List.mem_cons_self _ _)) hs)
        (fun j hj => hl j (List.mem_cons_of_mem _ hj)) h

theorem linear_scan_regs_from_pool (entries : List (VReg × Interval))
    (out : List LiveIntervals) (h : linear_scan entries = some out) :
    ∀ iv ∈ out, ∀ r, iv.phy_reg = some r → r ∈ ALL_REGS := by
  simp only [linear_scan] at h
  cases hs : scanGo ⟨[], [], ALL_REGS⟩
      (sortByKey LiveIntervals.start
        (entries.map (fun p => LiveIntervals.mk p.1 p.2.start p.2.iend none false))) with
  | none => rw [hs] at h; simp at h
  | some stf =>
    rw [hs] at h
    simp at h
    have hinv0 : scanInv ⟨[], [], ALL_REGS⟩ := by
      refine ⟨by simp, by simp, by simp⟩
    have hl : ∀ iv ∈ sortByKey LiveIntervals.start
        (entries.map (fun p => LiveIntervals.mk p.1 p.2.start p.2.iend none false)),
        ivOK iv := by
      intro iv hiv
      have := mem_of_mem_sortByKey LiveIntervals.start iv _ hiv
      rcases List.mem_map.mp this with ⟨p, _, hp⟩
      intro r hr
      rw [← hp] at hr
      simp at hr
    have := scanGo_inv _ _ _ hinv0 hl hs
    intro iv hiv r hr
    subst h
    exact this.1 iv hiv r hr

/-! ## Claim theorems -/

/-- C1: the claim states that no two intervals assigned the same physical
register overlap and that a stolen-from interval is marked spilled with no
register.  Evaluating the allocator on `pressureFunc` refutes both: the
steal heuristic hands `Virtual 25`'s register `t0` to `Virtual 27`, but the
spill mark set on the popped `worst` clone is discarded, so the returned map
still shows `Virtual 25` holding `t0`, unspilled, on `[25,53]`, while
`Virtual 27` holds the same `t0` on the overlapping `[27,27]`. -/
theorem c1_steal_leaves_overlapping_same_register :
    (allocFunc pressureFunc).bind (findIv (.Virtual 25)) =
      some ⟨.Virtual 25, 25, 53, some .T0, false⟩ ∧
    (allocFunc pressureFunc).bind (findIv (.Virtual 27)) =
      some ⟨.Virtual 27, 27, 27, some .T0, false⟩ := by
  exact ⟨by rfl, by rfl⟩

/-- C2: the claim states that on return from `rename_pass` one stack entry
has been popped for every def made in the block, restoring each stack to its
entry height.  Evaluating the pass on a one-block function with a single
definition of `x` (stacks initialized from `collect_defs` as in
`SSAFormation::new`) refutes it: the pop loop looks up the renamed def
`x$1`, which is not a key of the stacks map keyed by original names, so
nothing is popped and `x`'s stack has height 1 on exit instead of 0. -/
theorem c2_rename_pass_pops_nothing :
    collect_defs c2Func = [("x", [0])] ∧
    rename_pass [] 5 0 ⟨c2Func, [("x", 0)], [("x", [])]⟩ =
      some ⟨{ c2Func with blocks := [⟨"entry", [.Assign "x$1" "5"], [], []⟩] },
        [("x", 1)], [("x", ["x$1"])]⟩ := by
  exact ⟨by rfl, by rfl⟩

/-- C3: the claim states that dead-code elimination never removes a `Call`
(with or without destination).  Evaluating the pass on a block containing a
`Call` whose destination `d` is dead refutes it: the pass keys the drop
decision on `defs().first()` alone, so the `Call` is removed (and its uses
are not added). -/
theorem c3_dce_drops_call_with_dest :
    (IrInstruction.Call "f" [] (some "d")) ∈ (c3Func.blocks.getD 0 ⟨"", [], [], []⟩).instrs ∧
    eliminate_deadcode 10 c3Func =
      some { c3Func with blocks := [⟨"entry", [.Ret []], [], []⟩] } := by
  exact ⟨by decide, by rfl⟩

/-- C4: the claim states that a fall-through edge `b → b+1` is added whenever
block `b+1` exists, including when `b+1` is the last block.  Evaluating the
wiring refutes it: on the two-block `c4Func` no edge at all is added (the
guard `b + 1 < len - 1` fails for the last block), while on the three-block
`c4Func3` only the edge `0 → 1` is added and the fall-through `1 → 2` into
the last block is again skipped. -/
theorem c4_wire_skips_fall_through_into_last_block :
    wire_block_edges c4Func = some c4Func ∧
    (wire_block_edges c4Func3).map (fun f => f.blocks.map (fun b => (b.preds, b.succs))) =
      some [([], [1]), ([0], []), ([], [])] := by
  exact ⟨by rfl, by rfl⟩

/-- C5: the claim states that `Ret(args)` lowers to a `Ret` noting `args[0]`'s
register when `args` is non-empty, nothing when empty, and never fails.
Evaluating the selector refutes both halves: on an empty `Ret` the source
enters `if args.is_empty()` and indexes `args[0]` — an out-of-bounds panic
(`none`) — and on `Ret [x]` it skips the branch and emits `Ret` with no
register noted. -/
theorem c5_ret_lowering_inverted :
    select_instructions retEmptyFunc = none ∧
    select_instructions retOneFunc =
      some ⟨"f", [], [⟨"entry", [.Li (.Virtual 0) 5, .Ret none], []⟩], [("entry", 0)]⟩ := by
  exact ⟨by rfl, by rfl⟩

/-- C8: the claim states that a block whose idom is still bottom after the
fix-point makes `compute_idom` return an `Err` to its caller.  Evaluating
the embedded function on a two-block CFG whose second block has no
predecessors refutes it: the computation ends in the `panic!` outcome
(process abort); the source's only non-panicking return is `Ok(())`, so no
error value is ever produced. -/
theorem c8_compute_idom_panics :
    compute_idom 20 c8Func = some (.panicked 1) := by
  exact (by rfl)

/-- C6 counterexample: the claim states that every `Sub` (and `Div`) with two
decimal-literal operands is folded to a `Const`; running the pass on a block
holding `Sub d, "5", "3"` leaves the instruction unchanged — not the
`Const d, Int(2)` the claim requires. -/
theorem c6_sub_literals_left_unfolded :
    constantFoldPass c6Func = some (c6Func, true) ∧
    (IrInstruction.Sub "d" "5" "3") ≠ (.Const "d" (.Int 2)) := by
  exact ⟨by rfl, by decide⟩

/-- C6 (amended): constant folding replaces `Add` and `Mul` instructions
whose operands both parse as decimal `i64` literals with
`Const(dest, Int(eval))` when the `i64` result does not overflow, while
`Sub` and `Div` (which have no match arm) are always left untouched — so
division by zero never arises in folding — and the pass always reports
`true`. -/
theorem c6_folding_add_mul_only
    (d l r : String) (lv rv : Int)
    (hl : parseI64 l = some lv) (hr : parseI64 r = some rv) :
    (i64InRange (lv + rv) →
      constantFoldInstr (.Add d l r) = some (.Const d (.Int (lv + rv)))) ∧
    (i64InRange (lv * rv) →
      constantFoldInstr (.Mul d l r) = some (.Const d (.Int (lv * rv)))) ∧
    (∀ d' l' r', constantFoldInstr (.Sub d' l' r') = some (.Sub d' l' r')) ∧
    (∀ d' l' r', constantFoldInstr (.Div d' l' r') = some (.Div d' l' r')) ∧
    (∀ f res, constantFoldPass f = some res → res.2 = true) := by
  refine ⟨?_, ?_, fun _ _ _ => rfl, fun _ _ _ => rfl, ?_⟩
  · intro hrange
    simp [constantFoldInstr, hl, hr, i64CheckedAdd, if_pos hrange]
  · intro hrange
    simp [constantFoldInstr, hl, hr, i64CheckedMul, if_pos hrange]
  · intro f res h
    simp only [constantFoldPass] at h
    cases hb : constantFoldBlocks f.blocks with
    | none => rw [hb] at h; simp at h
    | some blocks' =>
      rw [hb] at h
      simp at h
      rw [← h]

/-- C6 witness: the amended fold applied at `Add d, "2", "3"`, the spec's
Scenario 3. -/
theorem c6_folding_witness :
    constantFoldInstr (.Add "d" "2" "3") = some (.Const "d" (.Int 5)) := by
  have h := (c6_folding_add_mul_only "d" "2" "3" 2 3 (by decide) (by decide)).1 (by decide)
  exact h

/-- C10: the folded `Add`/`Mul` value is computed by `i64` arithmetic (left
operand first, as in the source): the result is the exact sum/product
exactly when that value is representable in `i64`, and otherwise it is the
overflow abort; in particular `Add d, "9223372036854775807", "1"` aborts
instead of folding. -/
theorem c10_folding_uses_i64_arithmetic :
    (∀ d l r lv rv, parseI64 l = some lv → parseI64 r = some rv →
      constantFoldInstr (.Add d l r) =
        (i64CheckedAdd lv rv).map (fun s => .Const d (.Int s))) ∧
    (∀ d l r lv rv, parseI64 l = some lv → parseI64 r = some rv →
      constantFoldInstr (.Mul d l r) =
        (i64CheckedMul lv rv).map (fun s => .Const d (.Int s))) ∧
    (∀ a b : Int, i64InRange (a + b) → i64CheckedAdd a b = some (a + b)) ∧
    (∀ a b : Int, ¬ i64InRange (a + b) → i64CheckedAdd a b = none) ∧
    constantFoldInstr (.Add "d" "9223372036854775807" "1") = none := by
  refine ⟨?_, ?_, ?_, ?_, by decide⟩
  · intro d l r lv rv hl hr
    simp [constantFoldInstr, hl, hr]
  · intro d l r lv rv hl hr
    simp [constantFoldInstr, hl, hr]
  · intro a b hrange
    simp [i64CheckedAdd, if_pos hrange]
  · intro a b hrange
    simp [i64CheckedAdd, if_neg hrange]

/-- C10 witness: the `i64` fold applied at `Mul d, "6", "7"`. -/
theorem c10_folding_witness :
    constantFoldInstr (.Mul "d" "6" "7") = some (.Const "d" (.Int 42)) := by
  have h := c10_folding_uses_i64_arithmetic.2.1 "d" "6" "7" 6 7 (by decide) (by decide)
  rw [h]
  rfl

/-- C7 counterexample: the claim states the prologue is produced for any
spill count ≥ 1; on `pressureFunc` the allocator spills exactly one register
(`stack_frame = 8`) and the `s0` store offset `stack_frame - 16` underflows
the unsigned subtraction, so emission is not well-defined (a debug build
aborts). -/
theorem c7_single_spill_prologue_underflow :
    (allocFunc pressureFunc).map stack_frame_of = some 8 ∧
    emitPrologueFor pressureFunc = none := by
  exact ⟨by rfl, by rfl⟩

/-- C7 (amended): for every function whose allocation spills at least two
registers (`stack_frame ≥ 16`) the prologue computation is total and
produces the four lines of the source — decrement `sp`, store `ra` at
`stack_frame-8(sp)`, store `s0` at `stack_frame-16(sp)`, set `s0 = sp`. -/
theorem c7_prologue_total_from_two_spills (mf : MachineFunc) (out : List LiveIntervals)
    (halloc : allocFunc mf = some out)
    (hspill : 2 ≤ ((out.filter (fun iv => iv.mark_spilled)).length)) :
    emitPrologueFor mf =
      some ["  addi sp, sp, -" ++ toString (stack_frame_of out),
            "  sd ra, " ++ toString (stack_frame_of out - 8) ++ "(sp)",
            "  sd s0, " ++ toString (stack_frame_of out - 16) ++ "(sp)",
            "  mv s0, sp"] := by
  have h16 : 16 ≤ stack_frame_of out := by
    simp only [stack_frame_of]
    omega
  have hpos : 0 < stack_frame_of out := by omega
  have h8 : 8 ≤ stack_frame_of out := by omega
  rw [emitPrologueFor, halloc]
  simp [emitPrologue, hpos, usizeSub, h8, h16]

/-- C7 witness: the amended statement applied to `spill2Func`, whose
allocation spills two registers. -/
theorem c7_prologue_witness :
    emitPrologueFor spill2Func =
      some ["  addi sp, sp, -16", "  sd ra, 8(sp)", "  sd s0, 0(sp)", "  mv s0, sp"] := by
  have h := c7_prologue_total_from_two_spills spill2Func
    ((allocFunc spill2Func).getD []) (by rfl) (by rfl)
  exact h

/-- C9 counterexample: the claim states the pool comprises 27 registers; it
has 26 (`t0..t6` are 7, `a0..a7` are 8, `s1..s11` are 11). -/
theorem c9_pool_size_is_26 :
    ALL_REGS.length = 26 ∧ ALL_REGS.length ≠ 27 := by
  exact ⟨by rfl, by decide⟩

/-- C9 (amended): the pool from which the scan assigns is exactly
`t0..t6, a0..a7, s1..s11` — 26 registers — the reserved `s0`, `fp`, `sp`,
`ra`, `gp` are not in it, and every register assigned in any scan output is
drawn from it. -/
theorem c9_register_pool (entries : List (VReg × Interval)) (out : List LiveIntervals)
    (h : linear_scan entries = some out) :
    ALL_REGS = [.T0, .T1, .T2, .T3, .T4, .T5, .T6,
      .A0, .A1, .A2, .A3, .A4, .A5, .A6, .A7,
      .S1, .S2, .S3, .S4, .S5, .S6, .S7, .S8, .S9, .S10, .S11] ∧
    ALL_REGS.length = 26 ∧
    (VReg.S0 ∉ ALL_REGS ∧ VReg.FP ∉ ALL_REGS ∧ VReg.SP ∉ ALL_REGS ∧
      VReg.RA ∉ ALL_REGS ∧ VReg.GP ∉ ALL_REGS) ∧
    (∀ iv ∈ out, ∀ r, iv.phy_reg = some r → r ∈ ALL_REGS) := by
  exact ⟨rfl, rfl, by decide, linear_scan_regs_from_pool entries out h⟩

/-- C9 witness: the pool membership fact applied to a one-interval scan,
whose single interval receives `s11`. -/
theorem c9_register_pool_witness : VReg.S11 ∈ ALL_REGS := by
  have h := (c9_register_pool [(.Virtual 0, ⟨0, 0, none, false⟩)]
    [⟨.Virtual 0, 0, 0, some .S11, false⟩] (by rfl)).2.2.2
  exact h ⟨.Virtual 0, 0, 0, some .S11, false⟩ (by decide) .S11 rfl

end Choco
